import Mathlib

/-!
Shallow embedding of the `add` command of the reactuse CLI
(`src/commands/add`): the dependency resolver `resolveDependencies`,
the file-plan construction inside `add.handler`, and the per-file
install loop (overwrite prompt, directory creation, fetch, write,
barrel-index update).

Registry entries follow the source's field names
(`name`, `hooks`, `utils`, `local`, `packages`); the JS `Map` used for
the dependency set is modelled as an association list with the `Map.set`
update semantics (overwrite the value in place when the key is present,
append otherwise), which preserves insertion order exactly as JS `Map`
iteration does.  The JS recursion in `resolveDependency` has no
termination guard, so it is embedded with explicit fuel: the out-of-fuel
result models non-termination (stack exhaustion), and a failed
`registry[hook]!` dereference is modelled by the `lookupCrash` outcome
(the `TypeError` the JS would raise on `undefined.name`).
-/

/-- One entry of the remote registry (the JS object value), with the
source's field names: `name` is the display name, `hooks` the sub-hook
dependencies (recursed into), `utils`/`local`/`packages` the leaf
dependencies. -/
structure RegistryItem where
  name : String
  hooks : List String
  utils : List String
  «local» : List String
  packages : List String
deriving DecidableEq

/-- The registry: a JS object keyed by hook name, modelled as an
association list with unique keys. -/
abbrev Registry := List (String × RegistryItem)

/-- The dependency kind recorded by `resolveDependencies`
(the JS string union `'hook' | 'util' | 'local' | 'package'`). -/
inductive DepType where
  | hook
  | util
  | «local»
  | package
deriving DecidableEq

/-- One value of the `files` map built by `resolveDependencies`:
`{ type, name, parent }` where `parent` is `item.name` of the registry
entry whose visit recorded this node. -/
structure DepNode where
  type : DepType
  name : String
  parent : String
deriving DecidableEq

/-- The `files` map of `resolveDependencies`: a JS `Map` from name to
node, modelled as an insertion-ordered association list. -/
abbrev FilesMap := List (String × DepNode)

/-- JS object property lookup `registry[hook]`: first entry with the
given key (keys are unique in a JS object). -/
def lookupReg (registry : Registry) (hook : String) : Option RegistryItem :=
  match registry with
  | [] => none
  | (k, item) :: rest => if k = hook then some item else lookupReg rest hook

/-- JS `Map.prototype.set`: if the key is present, overwrite its value in
place (keeping the original insertion position); otherwise append the new
entry at the end. -/
def mapSet {α : Type} : List (String × α) → String → α → List (String × α)
  | [], k, v => [(k, v)]
  | (k', v') :: rest, k, v =>
      if k' = k then (k, v) :: rest else (k', v') :: mapSet rest k v

/-- JS `Map.prototype.get`: value at the key, if present. -/
def mapGet {α : Type} : List (String × α) → String → Option α
  | [], _ => none
  | (k', v') :: rest, k => if k' = k then some v' else mapGet rest k

/-- Abnormal outcome of the embedded resolver: `lookupCrash h` models the
`TypeError` raised by the unchecked `registry[h]!.name` dereference when
`h` is absent from the registry; `fuelExhausted` models the unbounded
recursion (the JS function has no cycle guard, so on a cyclic registry it
consumes the call stack without returning). -/
inductive ResolveCrash where
  | lookupCrash (hook : String)
  | fuelExhausted
deriving DecidableEq

/-- Sequential `for`-loop over names threading the `files` map, stopping
at the first abnormal outcome (a JS exception aborts the loop). -/
def exceptFold (f : String → FilesMap → Except ResolveCrash FilesMap) :
    List String → FilesMap → Except ResolveCrash FilesMap
  | [], files => .ok files
  | hook :: rest, files =>
    match f hook files with
    | .error e => .error e
    | .ok files => exceptFold f rest files

/-- Embedding of the inner `resolveDependency` closure: look the hook up,
record the hook node and its `utils`/`local`/`packages` leaves (each with
`parent := item.name`), then recurse unconditionally into every name in
`item.hooks`.  `fuel` bounds the recursion depth. -/
def resolveDependency (registry : Registry) :
    Nat → String → FilesMap → Except ResolveCrash FilesMap
  | 0, _, _ => .error .fuelExhausted
  | Nat.succ fuel, hook, files =>
    match lookupReg registry hook with
    | none => .error (.lookupCrash hook)
    | some item =>
      let files := mapSet files hook { type := .hook, name := hook, parent := item.name }
      let files := item.utils.foldl
        (fun fs util => mapSet fs util { type := .util, name := util, parent := item.name }) files
      let files := item.«local».foldl
        (fun fs l => mapSet fs l { type := .«local», name := l, parent := item.name }) files
      let files := item.packages.foldl
        (fun fs packag => mapSet fs packag { type := .package, name := packag, parent := item.name }) files
      exceptFold (resolveDependency registry fuel) item.hooks files

/-- Embedding of `resolveDependencies(registry, hooks)`: start from an
empty `files` map and resolve each requested hook in order. -/
def resolveDependencies (fuel : Nat) (registry : Registry)
    (hooks : List String) : Except ResolveCrash FilesMap :=
  exceptFold (resolveDependency registry fuel) hooks []

/-- One element of the `files` array built in `add.handler`: the concrete
install plan for a non-package dependency. -/
structure FilePlan where
  name : String
  directoryPath : String
  registryPath : String
  type : DepType
  indexPath : String
  filePath : String
deriving DecidableEq

/-- Plan for a `hook` dependency (the first branch of the `map` callback
in `add.handler`). -/
def hookPlan (hooksPath repoUrl language : String) (dep : DepNode) : FilePlan :=
  let filePath := dep.name ++ "/" ++ dep.name
  { name := dep.name
    directoryPath := hooksPath ++ "/" ++ filePath ++ "." ++ language
    registryPath := repoUrl ++ "/hooks/" ++ filePath ++ "." ++ language
    type := dep.type
    indexPath := hooksPath ++ "/index." ++ language
    filePath := filePath }

/-- Plan for a `util` dependency (the second branch of the `map`
callback). -/
def utilPlan (utilsPath repoUrl language : String) (dep : DepNode) : FilePlan :=
  let filePath := dep.name
  { name := dep.name
    directoryPath := utilsPath ++ "/" ++ filePath ++ "." ++ language
    registryPath := repoUrl ++ "/utils/helpers/" ++ filePath ++ "." ++ language
    type := dep.type
    indexPath := utilsPath ++ "/index." ++ language
    filePath := filePath }

/-- Plan for a `local` dependency (the third branch of the `map`
callback); every path is built from `dep.parent`, the display name of the
parent hook's registry entry. -/
def localPlan (hooksPath repoUrl language : String) (dep : DepNode) : FilePlan :=
  let filePath := dep.name
  { name := dep.name
    directoryPath := hooksPath ++ "/" ++ dep.parent ++ "/helpers/" ++ filePath ++ "." ++ language
    registryPath := repoUrl ++ "/hooks/" ++ dep.parent ++ "/helpers/" ++ filePath ++ "." ++ language
    type := dep.type
    indexPath := hooksPath ++ "/" ++ dep.parent ++ "/helpers/index." ++ language
    filePath := filePath }

/-- Embedding of the plan-building block of `add.handler`: map every
dependency node to a `FilePlan`, except `package` nodes whose names are
pushed onto the `packages` array; `filter(Boolean)` drops the `undefined`
placeholders the `package` branch returns, so the result is the plan
sequence in node order together with the package names in node order. -/
def buildFiles (deps : List DepNode) (hooksPath utilsPath repoUrl language : String) :
    List FilePlan × List String :=
  match deps with
  | [] => ([], [])
  | dep :: rest =>
    let acc := buildFiles rest hooksPath utilsPath repoUrl language
    match dep.type with
    | .hook => (hookPlan hooksPath repoUrl language dep :: acc.1, acc.2)
    | .util => (utilPlan utilsPath repoUrl language dep :: acc.1, acc.2)
    | .«local» => (localPlan hooksPath repoUrl language dep :: acc.1, acc.2)
    | .package => (acc.1, dep.name :: acc.2)

/-- Values of the `files` map in insertion order
(JS `Array.from(dependencies.values())`). -/
def mapValues {α : Type} (m : List (String × α)) : List α :=
  m.map Prod.snd

/-- Characters of a path strictly before its last `/`, or `none` when the
path has no `/`. -/
def beforeLastSlash : List Char → Option (List Char)
  | [] => none
  | c :: rest =>
    match beforeLastSlash rest with
    | some pre => some (c :: pre)
    | none => if c = '/' then some [] else none

/-- Node `path.dirname` for the POSIX paths the installer builds: the
text before the last `/`, with `"."` when there is no `/` and `"/"` when
the last `/` is the first character. -/
def dirname (p : String) : String :=
  match beforeLastSlash p.data with
  | none => "."
  | some [] => "/"
  | some pre => String.mk pre

/-- JS `String.prototype.includes` on character lists: does `pat` occur
contiguously inside `s`? -/
def hasSubstr : List Char → List Char → Bool
  | [], pat => pat.isEmpty
  | s@(_ :: rest), pat => pat.isPrefixOf s || hasSubstr rest pat

/-- JS `content.includes(pat)` on strings. -/
def strIncludes (s pat : String) : Bool :=
  hasSubstr s.data pat.data

/-- The on-disk state the install loop touches: the set of directories
that exist and the files that exist with their text content. -/
structure DiskState where
  dirs : List String
  fileContents : List (String × String)
deriving DecidableEq

/-- Node `fs.existsSync` specialised to a directory path. -/
def dirOnDisk (disk : DiskState) (d : String) : Bool :=
  disk.dirs.contains d

/-- Node `fs.existsSync` specialised to a file path. -/
def fileOnDisk (disk : DiskState) (p : String) : Bool :=
  (mapGet disk.fileContents p).isSome

/-- Node `fs.mkdirSync(directory, { recursive: true })`: record the
directory as existing. -/
def mkdirOn (disk : DiskState) (d : String) : DiskState :=
  { disk with dirs := d :: disk.dirs }

/-- Node `fs.writeFileSync(path, content)`: create or overwrite the
file. -/
def writeFileOn (disk : DiskState) (p content : String) : DiskState :=
  { disk with fileContents := mapSet disk.fileContents p content }

/-- Node `fs.readFileSync(path, 'utf-8')`, empty when absent (the loop
only reads after guaranteeing existence). -/
def readFileOn (disk : DiskState) (p : String) : String :=
  (mapGet disk.fileContents p).getD ""

/-- Node `fs.appendFileSync(path, text)`: append to the file's content
(empty when absent). -/
def appendFileOn (disk : DiskState) (p text : String) : DiskState :=
  { disk with fileContents := mapSet disk.fileContents p (readFileOn disk p ++ text) }

/-- Observable state of one run of the install loop: the disk, the
confirmation prompts shown, the console lines logged, and the URLs
fetched. -/
structure InstallState where
  disk : DiskState
  promptsShown : List String
  log : List String
  fetched : List String
deriving DecidableEq

/-- The overwrite-confirmation message of the `prompts` call in the
install loop. -/
def overwritePromptMsg (name : String) : String :=
  "File " ++ name ++ " already exists. Would you like to overwrite?"

/-- The console line logged when the user declines the overwrite
confirmation. -/
def skipMsg (name : String) : String :=
  "Skipped " ++ name ++ ". To overwrite, run with the --overwrite flag."

/-- The barrel-export line appended for a plan
(JS `export * from './${filePath}';\n`). -/
def exportStatement (filePath : String) : String :=
  "export * from './" ++ filePath ++ "';\n"

/-- The body of the install loop after the overwrite prompt (or when the
prompt is bypassed): create the destination directory when missing, fetch
the source and write it to the destination, then idempotently append the
export line to the barrel index (creating it empty when absent). -/
def installBody (fetch : String → String) (st : InstallState) (file : FilePlan)
    (directory : String) : InstallState :=
  let disk := if dirOnDisk st.disk directory then st.disk else mkdirOn st.disk directory
  let content := fetch file.registryPath
  let disk := writeFileOn disk file.directoryPath content
  let stmt := exportStatement file.filePath
  let disk := if fileOnDisk disk file.indexPath then disk else writeFileOn disk file.indexPath ""
  let indexFileContent := readFileOn disk file.indexPath
  let disk := if strIncludes indexFileContent stmt then disk else appendFileOn disk file.indexPath stmt
  { st with disk := disk, fetched := st.fetched ++ [file.registryPath] }

/-- One iteration of the install loop for one plan.  The JS guards the
prompt with `if (directory)` — the truthiness of the `path.dirname`
string, not any disk check — so the prompt is skipped only when that
string is empty.  `userAccepts` models the user's answer to the
confirmation prompt. -/
def installPlanStep (fetch : String → String) (userAccepts : FilePlan → Bool)
    (st : InstallState) (file : FilePlan) : InstallState :=
  let directory := dirname file.directoryPath
  if directory = "" then installBody fetch st file directory
  else
    let st := { st with promptsShown := st.promptsShown ++ [overwritePromptMsg file.name] }
    if userAccepts file then installBody fetch st file directory
    else { st with log := st.log ++ [skipMsg file.name] }

/-- The whole install loop: process the plans strictly in sequence. -/
def installFiles (fetch : String → String) (userAccepts : FilePlan → Bool)
    (st : InstallState) (files : List FilePlan) : InstallState :=
  files.foldl (installPlanStep fetch userAccepts) st

/-- The barrel-index text after the index-update step of the install
loop, given the current text: append the export line only when it is not
already contained. -/
def updateIndexContent (content stmt : String) : String :=
  if strIncludes content stmt then content else content ++ stmt

/-- Two-entry registry with a dependency cycle
(`a` lists `b` among its hooks and `b` lists `a`). -/
def cycReg : Registry :=
  [("a", { name := "a", hooks := ["b"], utils := [], «local» := [], packages := [] }),
   ("b", { name := "b", hooks := ["a"], utils := [], «local» := [], packages := [] })]

/-- One-entry registry whose hook `a` references a hook `b` that is
absent from the registry. -/
def missingReg : Registry :=
  [("a", { name := "a", hooks := ["b"], utils := [], «local» := [], packages := [] })]

/-- The registry of the plan-correctness scenario: `useFoo` with one
shared util, no sub-hooks, no local helpers, one package. -/
def fooReg : Registry :=
  [("useFoo", { name := "useFoo", hooks := [], utils := ["formatDate"],
                «local» := [], packages := ["left-pad"] })]

/-- Install-loop state with nothing on disk and no observed effects. -/
def emptyInstallState : InstallState :=
  { disk := { dirs := [], fileContents := [] }, promptsShown := [], log := [], fetched := [] }

/-- A concrete hook plan used to exercise the install loop on an empty
disk. -/
def samplePlan : FilePlan :=
  { name := "useFoo"
    directoryPath := "hooks/useFoo/useFoo.ts"
    registryPath := "repo/hooks/useFoo/useFoo.ts"
    type := .hook
    indexPath := "hooks/index.ts"
    filePath := "useFoo/useFoo" }

/-- Node `path.dirname` never returns the empty string: it yields `"."`
for slash-free input, `"/"` for a root-level path, and otherwise the
non-empty text before the last slash.  This is why the install loop's
`if (directory)` truthiness guard always passes. -/
theorem dirname_data_ne_nil (p : String) : (dirname p).data ≠ [] := by
  unfold dirname
  rcases h : beforeLastSlash p.data with _ | (_ | ⟨c, pre⟩)
  · decide
  · decide
  · exact List.cons_ne_nil c pre

/-- Emptiness form of `dirname_data_ne_nil`. -/
theorem dirname_ne_empty (p : String) : dirname p ≠ "" := by
  intro hc
  exact dirname_data_ne_nil p (by rw [hc])

/-- Divergence of the resolver on the cyclic registry: visiting `a` or
`b` exhausts any amount of fuel, whatever the accumulated map is, because
`resolveDependency` recurses into `hooks` references unconditionally. -/
theorem cycReg_exhausts_fuel :
    ∀ fuel files,
      resolveDependency cycReg fuel "a" files = .error .fuelExhausted ∧
      resolveDependency cycReg fuel "b" files = .error .fuelExhausted := by
  intro fuel
  induction fuel with
  | zero => intro files; exact ⟨rfl, rfl⟩
  | succ f ih =>
    intro files
    have iha : ∀ fs, resolveDependency cycReg f "a" fs = .error .fuelExhausted :=
      fun fs => (ih fs).1
    have ihb : ∀ fs, resolveDependency cycReg f "b" fs = .error .fuelExhausted :=
      fun fs => (ih fs).2
    have ha : lookupReg cycReg "a" =
        some { name := "a", hooks := ["b"], utils := [], «local» := [], packages := [] } := rfl
    have hb : lookupReg cycReg "b" =
        some { name := "b", hooks := ["a"], utils := [], «local» := [], packages := [] } := rfl
    constructor
    · simp [resolveDependency, ha, exceptFold, List.foldl, ihb]
    · simp [resolveDependency, hb, exceptFold, List.foldl, iha]

/-- C2: for the registry in which `a` declares hooks `[b]` and `b`
declares hooks `[a]`, the source's resolver does not terminate with a
CycleDetected report — it recurses without bound (every fuel allowance is
exhausted), because `resolveDependency` has no visited-path guard. -/
theorem C2_cycle_resolution_diverges (fuel : Nat) :
    resolveDependencies fuel cycReg ["a"] = .error .fuelExhausted := by
  simp only [resolveDependencies, exceptFold]
  rw [(cycReg_exhausts_fuel fuel []).1]

/-- C3: for the registry in which `a` references a hook `b` absent from
the registry, the resolver crashes on the unchecked `registry[b]!.name`
dereference (modelled by `lookupCrash`) instead of reporting a typed
UnknownUnit failure, for every sufficient fuel allowance. -/
theorem C3_missing_reference_crashes (fuel : Nat) :
    resolveDependencies (fuel + 2) missingReg ["a"] = .error (.lookupCrash "b") := by
  simp [resolveDependencies, resolveDependency, missingReg, lookupReg, exceptFold, List.foldl]

/-- C4: resolving `["useFoo"]` against the one-entry registry
`useFoo ↦ {hooks: [], utils: [formatDate], local: [], packages: [left-pad]}`
and building plans with extension `x` yields exactly one hook plan with
destination `{hooksRoot}/useFoo/useFoo.x`, one util plan with destination
`{utilsRoot}/formatDate.x`, no local-helper plan, and the package list
`[left-pad]`. -/
theorem C4_plan_correctness (hooksRoot utilsRoot repoUrl : String) :
    resolveDependencies 1 fooReg ["useFoo"] =
      .ok [("useFoo", { type := .hook, name := "useFoo", parent := "useFoo" }),
           ("formatDate", { type := .util, name := "formatDate", parent := "useFoo" }),
           ("left-pad", { type := .package, name := "left-pad", parent := "useFoo" })] ∧
    buildFiles
        (mapValues [("useFoo", { type := .hook, name := "useFoo", parent := "useFoo" }),
                    ("formatDate", { type := .util, name := "formatDate", parent := "useFoo" }),
                    ("left-pad", { type := .package, name := "left-pad", parent := "useFoo" })])
        hooksRoot utilsRoot repoUrl "x" =
      ([{ name := "useFoo"
          directoryPath := hooksRoot ++ "/" ++ "useFoo/useFoo" ++ "." ++ "x"
          registryPath := repoUrl ++ "/hooks/" ++ "useFoo/useFoo" ++ "." ++ "x"
          type := .hook
          indexPath := hooksRoot ++ "/index." ++ "x"
          filePath := "useFoo/useFoo" },
        { name := "formatDate"
          directoryPath := utilsRoot ++ "/" ++ "formatDate" ++ "." ++ "x"
          registryPath := repoUrl ++ "/utils/helpers/" ++ "formatDate" ++ "." ++ "x"
          type := .util
          indexPath := utilsRoot ++ "/index." ++ "x"
          filePath := "formatDate" }],
       ["left-pad"]) :=
  ⟨rfl, rfl⟩

/-- A pattern is always found inside a text that ends with it. -/
theorem hasSubstr_append_self (s pat : List Char) : hasSubstr (s ++ pat) pat = true := by
  induction s with
  | nil =>
    cases pat with
    | nil => rfl
    | cons c rest =>
      simp [hasSubstr, List.isPrefixOf_iff_prefix]
  | cons c s ih =>
    simp [hasSubstr, ih]

/-- C7: the barrel-index update is idempotent: when the export line is
already contained in the index text, the update leaves the text
unchanged; and running the update twice with the same line produces the
same text as running it once, so repeated installer runs never duplicate
an export line. -/
theorem C7_index_update_idempotent (content stmt : String) :
    (strIncludes content stmt = true → updateIndexContent content stmt = content) ∧
    updateIndexContent (updateIndexContent content stmt) stmt =
      updateIndexContent content stmt := by
  refine ⟨fun h => by simp [updateIndexContent, h], ?_⟩
  by_cases h : strIncludes content stmt
  · simp [updateIndexContent, h]
  · have happ : strIncludes (content ++ stmt) stmt = true := by
      simp [strIncludes, String.data_append, hasSubstr_append_self]
    simp [updateIndexContent, h, happ]

/-- Witness for `C7_index_update_idempotent` at a concrete index text
that already contains the export line. -/
theorem C7_index_update_idempotent_witness :
    strIncludes "export * from './useFoo/useFoo';\n" "export * from './useFoo/useFoo';\n" = true ∧
    updateIndexContent "export * from './useFoo/useFoo';\n" "export * from './useFoo/useFoo';\n" =
      "export * from './useFoo/useFoo';\n" :=
  ⟨rfl, (C7_index_update_idempotent _ _).1 rfl⟩

/-- C1: counterexample to "the overwrite prompt is shown if and only if
the plan's destination parent directory already exists on disk": on an
empty disk the destination's parent directory does not exist, yet
processing the plan still shows the overwrite-confirmation prompt,
because the code's guard `if (directory)` tests string truthiness of
`path.dirname`, not disk existence. -/
theorem C1_prompt_without_existing_directory :
    dirOnDisk emptyInstallState.disk (dirname samplePlan.directoryPath) = false ∧
    (installPlanStep (fun _ => "content") (fun _ => true)
        emptyInstallState samplePlan).promptsShown ≠ emptyInstallState.promptsShown := by
  exact ⟨rfl, by decide⟩

/-- C1 (amended): the overwrite-confirmation prompt is shown for every
plan processed, regardless of what exists on disk: the guard tests only
that the `path.dirname` string of the destination is non-empty, which it
always is. -/
theorem C1_prompt_unconditional (fetch : String → String)
    (userAccepts : FilePlan → Bool) (st : InstallState) (file : FilePlan) :
    (installPlanStep fetch userAccepts st file).promptsShown =
      st.promptsShown ++ [overwritePromptMsg file.name] := by
  unfold installPlanStep
  rw [if_neg (dirname_ne_empty file.directoryPath)]
  cases h : userAccepts file <;> simp [h, installBody]

/-- C5: the plan builder partitions every dependency node into exactly
one of the file-plan sequence and the package list: package nodes
contribute their names to the package list, every other kind becomes one
file plan, and plan count plus package count equals the node count. -/
theorem C5_partition_completeness (deps : List DepNode) (h u r lang : String) :
    (buildFiles deps h u r lang).1.length + (buildFiles deps h u r lang).2.length
        = deps.length ∧
    (buildFiles deps h u r lang).1.map (fun p => p.name) =
      (deps.filter (fun d => d.type != DepType.package)).map (fun d => d.name) ∧
    (buildFiles deps h u r lang).2 =
      (deps.filter (fun d => d.type == DepType.package)).map (fun d => d.name) := by
  induction deps with
  | nil => exact ⟨rfl, rfl, rfl⟩
  | cons d rest ih =>
    obtain ⟨ih1, ih2, ih3⟩ := ih
    refine ⟨?_, ?_, ?_⟩
    · cases hd : d.type <;> simp [buildFiles, hd] <;> omega
    · cases hd : d.type <;> simp [buildFiles, hd, hookPlan, utilPlan, localPlan, ih2]
    · cases hd : d.type <;> simp [buildFiles, hd, ih3]

/-- C9: when the user declines the overwrite confirmation, the install
loop leaves the disk and the fetch trace untouched for that plan, logs
the skip notice naming the `--overwrite` flag, and continues with the
remaining plans from that same state. -/
theorem C9_decline_skips_plan (fetch : String → String)
    (userAccepts : FilePlan → Bool) (st : InstallState) (file : FilePlan)
    (rest : List FilePlan) (hdecline : userAccepts file = false) :
    installPlanStep fetch userAccepts st file =
      { st with promptsShown := st.promptsShown ++ [overwritePromptMsg file.name],
                log := st.log ++ [skipMsg file.name] } ∧
    installFiles fetch userAccepts st (file :: rest) =
      installFiles fetch userAccepts
        { st with promptsShown := st.promptsShown ++ [overwritePromptMsg file.name],
                  log := st.log ++ [skipMsg file.name] } rest := by
  have hstep : installPlanStep fetch userAccepts st file =
      { st with promptsShown := st.promptsShown ++ [overwritePromptMsg file.name],
                log := st.log ++ [skipMsg file.name] } := by
    unfold installPlanStep
    rw [if_neg (dirname_ne_empty file.directoryPath)]
    simp [hdecline]
  refine ⟨hstep, ?_⟩
  show (file :: rest).foldl (installPlanStep fetch userAccepts) st = _
  rw [List.foldl_cons, hstep]
  rfl

/-- Witness for `C9_decline_skips_plan`: a concrete declined plan on an
empty disk is skipped with only the prompt and the skip notice
recorded. -/
theorem C9_decline_skips_plan_witness :
    ((fun _ : FilePlan => false) samplePlan = false) ∧
    installPlanStep (fun _ => "content") (fun _ => false) emptyInstallState samplePlan =
      { emptyInstallState with
          promptsShown := emptyInstallState.promptsShown ++ [overwritePromptMsg samplePlan.name],
          log := emptyInstallState.log ++ [skipMsg samplePlan.name] } :=
  ⟨rfl, (C9_decline_skips_plan (fun _ => "content") (fun _ => false)
      emptyInstallState samplePlan [] rfl).1⟩

/-- Keys of the map after a `set`: unchanged when the key is already
present, extended by the key at the end otherwise. -/
theorem mapSet_keys {α : Type} (m : List (String × α)) (k : String) (v : α) :
    (mapSet m k v).map Prod.fst =
      if k ∈ m.map Prod.fst then m.map Prod.fst else m.map Prod.fst ++ [k] := by
  induction m with
  | nil => simp [mapSet]
  | cons p rest ih =>
    obtain ⟨k', v'⟩ := p
    by_cases h : k' = k
    · subst h; simp [mapSet]
    · have h2 : ¬ k = k' := fun e => h e.symm
      by_cases hm : k ∈ rest.map Prod.fst <;>
        simp [mapSet, h, h2, hm, ih]

/-- A `set` never duplicates a key. -/
theorem mapSet_keys_nodup {α : Type} {m : List (String × α)}
    (h : (m.map Prod.fst).Nodup) (k : String) (v : α) :
    ((mapSet m k v).map Prod.fst).Nodup := by
  rw [mapSet_keys]
  by_cases hm : k ∈ m.map Prod.fst
  · simpa [hm] using h
  · simp [hm, List.nodup_append, h]

/-- Recording a list of leaves with `set` never duplicates a key. -/
theorem foldl_mapSet_keys_nodup {α : Type} (g : String → α) (xs : List String) :
    ∀ m : List (String × α), (m.map Prod.fst).Nodup →
      ((xs.foldl (fun fs x => mapSet fs x (g x)) m).map Prod.fst).Nodup := by
  induction xs with
  | nil => intro m h; simpa using h
  | cons x xs ih =>
    intro m h
    simp only [List.foldl_cons]
    exact ih _ (mapSet_keys_nodup h x (g x))

/-- The resolver's map update discipline never duplicates a key: whenever
the fueled resolver (or its hook loop) returns normally, the resulting
map's key list is duplicate-free, provided the incoming map's was. -/
theorem resolve_preserves_keys_nodup (registry : Registry) :
    ∀ fuel : Nat,
      (∀ hook (files out : FilesMap), (files.map Prod.fst).Nodup →
          resolveDependency registry fuel hook files = .ok out →
          (out.map Prod.fst).Nodup) ∧
      (∀ hooks (files out : FilesMap), (files.map Prod.fst).Nodup →
          exceptFold (resolveDependency registry fuel) hooks files = .ok out →
          (out.map Prod.fst).Nodup) := by
  intro fuel
  induction fuel with
  | zero =>
    constructor
    · intro hook files out _ hres
      exact absurd hres (by simp [resolveDependency])
    · intro hooks files out h hres
      cases hooks with
      | nil =>
        simp only [exceptFold, Except.ok.injEq] at hres
        subst hres; exact h
      | cons hk rest =>
        exact absurd hres (by simp [exceptFold, resolveDependency])
  | succ f ih =>
    have hD : ∀ hook (files out : FilesMap), (files.map Prod.fst).Nodup →
        resolveDependency registry (f + 1) hook files = .ok out →
        (out.map Prod.fst).Nodup := by
      intro hook files out h hres
      simp only [resolveDependency] at hres
      cases hlook : lookupReg registry hook with
      | none => rw [hlook] at hres; cases hres
      | some item =>
        rw [hlook] at hres
        refine ih.2 item.hooks _ out ?_ hres
        exact foldl_mapSet_keys_nodup _ item.packages _
          (foldl_mapSet_keys_nodup _ item.«local» _
            (foldl_mapSet_keys_nodup _ item.utils _
              (mapSet_keys_nodup h hook _)))
    refine ⟨hD, ?_⟩
    intro hooks
    induction hooks with
    | nil =>
      intro files out h hres
      simp only [exceptFold, Except.ok.injEq] at hres
      subst hres; exact h
    | cons hk rest ihr =>
      intro files out h hres
      simp only [exceptFold] at hres
      cases hstep : resolveDependency registry (f + 1) hk files with
      | error e => rw [hstep] at hres; cases hres
      | ok files1 =>
        rw [hstep] at hres
        exact ihr files1 out (hD hk files files1 h hstep) hres

/-- C6: in every resolution result each name is a key at most once (the
key list is duplicate-free), and when the same leaf name is recorded by
two different hooks visited in order A then B, the surviving node carries
the parent contributed by B — the later `Map.set` overwrites the value
recorded under A. -/
theorem C6_unique_names_last_parent_wins :
    (∀ fuel registry roots files,
        resolveDependencies fuel registry roots = .ok files →
        (files.map Prod.fst).Nodup) ∧
    (∀ A B nA nB leaf : String, A ≠ B → leaf ≠ A → leaf ≠ B →
        ∀ files,
          resolveDependencies 1
            [(A, { name := nA, hooks := [], utils := [leaf], «local» := [], packages := [] }),
             (B, { name := nB, hooks := [], utils := [leaf], «local» := [], packages := [] })]
            [A, B] = .ok files →
          mapGet files leaf = some { type := .util, name := leaf, parent := nB }) := by
  constructor
  · intro fuel registry roots files hres
    exact (resolve_preserves_keys_nodup registry fuel).2 roots [] files (by simp) hres
  · intro A B nA nB leaf hAB hA hB files hres
    have h1 : ¬ A = leaf := fun e => hA e.symm
    have h2 : ¬ B = leaf := fun e => hB e.symm
    have h3 : ¬ A = B := hAB
    simp only [resolveDependencies, resolveDependency, exceptFold, lookupReg, List.foldl,
      mapSet, if_pos, if_neg h1, if_neg h2, if_neg h3, if_true, eq_self_iff_true,
      Except.ok.injEq] at hres
    subst hres
    simp [mapGet, mapSet, h1, h2, hA, hB]

/-- Witness for `C6_unique_names_last_parent_wins`: concrete duplicate
keys never appear, and the shared leaf `h` visited from `a` then `b`
keeps parent `nb`. -/
theorem C6_unique_names_last_parent_wins_witness :
    (resolveDependencies 1 fooReg ["useFoo"] =
        .ok [("useFoo", { type := .hook, name := "useFoo", parent := "useFoo" }),
             ("formatDate", { type := .util, name := "formatDate", parent := "useFoo" }),
             ("left-pad", { type := .package, name := "left-pad", parent := "useFoo" })] ∧
      (List.map Prod.fst
        [("useFoo", { type := .hook, name := "useFoo", parent := "useFoo" }),
         ("formatDate", { type := .util, name := "formatDate", parent := "useFoo" }),
         ("left-pad", ({ type := .package, name := "left-pad", parent := "useFoo" } : DepNode))]).Nodup) ∧
    (("a" : String) ≠ "b" ∧ ("h" : String) ≠ "a" ∧ ("h" : String) ≠ "b" ∧
      mapGet ([("a", { type := DepType.hook, name := "a", parent := "na" }),
               ("h", { type := DepType.util, name := "h", parent := "nb" }),
               ("b", { type := DepType.hook, name := "b", parent := "nb" })] : FilesMap) "h" =
        some { type := .util, name := "h", parent := "nb" }) :=
  ⟨⟨rfl, C6_unique_names_last_parent_wins.1 1 fooReg ["useFoo"] _ rfl⟩,
   by decide, by decide, by decide,
   C6_unique_names_last_parent_wins.2 "a" "b" "na" "nb" "h"
     (by decide) (by decide) (by decide)
     [("a", { type := DepType.hook, name := "a", parent := "na" }),
      ("h", { type := DepType.util, name := "h", parent := "nb" }),
      ("b", { type := DepType.hook, name := "b", parent := "nb" })] rfl⟩

/-- Replacing the entry stored under `n` leaves every other lookup
unchanged. -/
theorem lookupReg_mapSet_ne (registry : Registry) (n : String)
    (entry : RegistryItem) (m : String) (hm : m ≠ n) :
    lookupReg (mapSet registry n entry) m = lookupReg registry m := by
  have hnm : ¬ n = m := fun e => hm e.symm
  induction registry with
  | nil => simp [mapSet, lookupReg, hnm]
  | cons p rest ih =>
    obtain ⟨k, v⟩ := p
    by_cases hk : k = n
    · subst hk; simp [mapSet, lookupReg, hnm]
    · simp [mapSet, lookupReg, hk, ih]

/-- A successful lookup locates an entry of the registry list. -/
theorem lookupReg_mem {registry : Registry} {h : String} {item : RegistryItem}
    (hl : lookupReg registry h = some item) : (h, item) ∈ registry := by
  induction registry with
  | nil => cases hl
  | cons p rest ih =>
    obtain ⟨k, v⟩ := p
    by_cases hk : k = h
    · subst hk
      simp [lookupReg] at hl
      subst hl
      exact List.mem_cons_self _ _
    · simp only [lookupReg, if_neg hk] at hl
      exact List.mem_cons_of_mem _ (ih hl)

/-- Frame property of the resolver: the registry entry stored under a
name that is neither a root nor listed in any entry's `hooks` is never
consulted — replacing it does not change resolution at all.  Helper,
leaf and package names are recorded but never used as recursion roots. -/
theorem resolve_frame (registry : Registry) (n : String) (entry : RegistryItem)
    (hhooks : ∀ p ∈ registry, n ∉ p.2.hooks) :
    ∀ fuel : Nat,
      (∀ hook, hook ≠ n → ∀ files,
          resolveDependency (mapSet registry n entry) fuel hook files =
            resolveDependency registry fuel hook files) ∧
      (∀ hooks, n ∉ hooks → ∀ files,
          exceptFold (resolveDependency (mapSet registry n entry) fuel) hooks files =
            exceptFold (resolveDependency registry fuel) hooks files) := by
  intro fuel
  induction fuel with
  | zero =>
    refine ⟨fun hook _ files => rfl, ?_⟩
    intro hooks _ files
    cases hooks <;> rfl
  | succ f ih =>
    have hD : ∀ hook, hook ≠ n → ∀ files,
        resolveDependency (mapSet registry n entry) (f + 1) hook files =
          resolveDependency registry (f + 1) hook files := by
      intro hook hne files
      simp only [resolveDependency]
      rw [lookupReg_mapSet_ne registry n entry hook hne]
      cases hlook : lookupReg registry hook with
      | none => rfl
      | some item =>
        exact ih.2 item.hooks (hhooks (hook, item) (lookupReg_mem hlook)) _
    refine ⟨hD, ?_⟩
    intro hooks
    induction hooks with
    | nil => intro _ files; rfl
    | cons hk rest ihr =>
      intro hn files
      have hkn : hk ≠ n := fun e => hn (e ▸ List.mem_cons_self hk rest)
      have hrest : n ∉ rest := fun hmem => hn (List.mem_cons_of_mem hk hmem)
      simp only [exceptFold]
      rw [hD hk hkn files]
      cases resolveDependency registry (f + 1) hk files with
      | error e => rfl
      | ok files1 => exact ihr hrest files1

/-- C8: a name recorded only as a leaf (helper, local helper or package)
is never used as a recursion root: as long as it is not a requested root
and appears in no entry's `hooks` list, the registry entry stored under
that name — even when present — is irrelevant, and replacing it leaves
the whole resolution unchanged. -/
theorem C8_leaf_names_never_recursion_roots (registry : Registry)
    (n : String) (entry : RegistryItem) (roots : List String) (fuel : Nat)
    (hroot : n ∉ roots) (hhooks : ∀ p ∈ registry, n ∉ p.2.hooks) :
    resolveDependencies fuel (mapSet registry n entry) roots =
      resolveDependencies fuel registry roots :=
  (resolve_frame registry n entry hhooks fuel).2 roots hroot []

/-- Witness for `C8_leaf_names_never_recursion_roots`: the registry maps
`h` both as a util leaf of `a` and as a registry key of its own; its own
entry is never consulted when resolving from `a`. -/
theorem C8_leaf_names_never_recursion_roots_witness :
    (("h" : String) ∉ ["a"] ∧
      ∀ p ∈ ([("a", { name := "a", hooks := [], utils := ["h"], «local» := [], packages := [] }),
              ("h", { name := "h", hooks := [], utils := [], «local» := [], packages := ["pkg"] })] :
          Registry), ("h" : String) ∉ p.2.hooks) ∧
    resolveDependencies 2
        (mapSet
          [("a", { name := "a", hooks := [], utils := ["h"], «local» := [], packages := [] }),
           ("h", { name := "h", hooks := [], utils := [], «local» := [], packages := ["pkg"] })]
          "h" { name := "other", hooks := ["a"], utils := [], «local» := [], packages := [] })
        ["a"] =
      resolveDependencies 2
        [("a", { name := "a", hooks := [], utils := ["h"], «local» := [], packages := [] }),
         ("h", { name := "h", hooks := [], utils := [], «local» := [], packages := ["pkg"] })]
        ["a"] :=
  ⟨⟨by decide, by decide⟩,
   C8_leaf_names_never_recursion_roots
     [("a", { name := "a", hooks := [], utils := ["h"], «local» := [], packages := [] }),
      ("h", { name := "h", hooks := [], utils := [], «local» := [], packages := ["pkg"] })]
     "h" { name := "other", hooks := ["a"], utils := [], «local» := [], packages := [] }
     ["a"] 2 (by decide) (by decide)⟩

/-- Membership after a `set`: the new entry or an original one. -/
theorem mapSet_mem {α : Type} {m : List (String × α)} {k : String} {v : α}
    {p : String × α} (hp : p ∈ mapSet m k v) : p = (k, v) ∨ p ∈ m := by
  induction m with
  | nil => simpa [mapSet] using hp
  | cons q rest ih =>
    obtain ⟨k', v'⟩ := q
    by_cases h : k' = k
    · subst h
      simp only [mapSet, if_true, eq_self_iff_true, List.mem_cons] at hp
      rcases hp with h1 | h2
      · exact Or.inl h1
      · exact Or.inr (List.mem_cons_of_mem _ h2)
    · simp only [mapSet, if_neg h, List.mem_cons] at hp
      rcases hp with h1 | h2
      · exact Or.inr (h1 ▸ List.mem_cons_self _ _)
      · rcases ih h2 with h3 | h4
        · exact Or.inl h3
        · exact Or.inr (List.mem_cons_of_mem _ h4)

/-- Membership after recording a list of leaves with `set`: one of the
new leaf entries or an original entry. -/
theorem foldl_mapSet_mem {α : Type} (g : String → α) (xs : List String) :
    ∀ (m : List (String × α)) (p : String × α),
      p ∈ xs.foldl (fun fs x => mapSet fs x (g x)) m →
      (∃ x ∈ xs, p = (x, g x)) ∨ p ∈ m := by
  induction xs with
  | nil => intro m p hp; exact Or.inr (by simpa using hp)
  | cons x xs ih =>
    intro m p hp
    simp only [List.foldl_cons] at hp
    rcases ih _ p hp with ⟨y, hy, hpy⟩ | hpm
    · exact Or.inl ⟨y, List.mem_cons_of_mem x hy, hpy⟩
    · rcases mapSet_mem hpm with h1 | h2
      · exact Or.inl ⟨x, List.mem_cons_self x xs, h1⟩
      · exact Or.inr h2

/-- Provenance of recorded parents: every node the resolver adds carries
`parent := item.name` for the registry entry `item` that the enclosing
`resolveDependency` call looked up — never the raw lookup key. -/
theorem resolve_parent_provenance (registry : Registry) :
    ∀ fuel : Nat,
      (∀ hook (files out : FilesMap),
          (∀ p ∈ files, ∃ k item, lookupReg registry k = some item ∧ p.2.parent = item.name) →
          resolveDependency registry fuel hook files = .ok out →
          ∀ p ∈ out, ∃ k item, lookupReg registry k = some item ∧ p.2.parent = item.name) ∧
      (∀ hooks (files out : FilesMap),
          (∀ p ∈ files, ∃ k item, lookupReg registry k = some item ∧ p.2.parent = item.name) →
          exceptFold (resolveDependency registry fuel) hooks files = .ok out →
          ∀ p ∈ out, ∃ k item, lookupReg registry k = some item ∧ p.2.parent = item.name) := by
  intro fuel
  induction fuel with
  | zero =>
    constructor
    · intro hook files out _ hres
      exact absurd hres (by simp [resolveDependency])
    · intro hooks files out h hres
      cases hooks with
      | nil =>
        simp only [exceptFold, Except.ok.injEq] at hres
        subst hres; exact h
      | cons hk rest =>
        exact absurd hres (by simp [exceptFold, resolveDependency])
  | succ f ih =>
    have hD : ∀ hook (files out : FilesMap),
        (∀ p ∈ files, ∃ k item, lookupReg registry k = some item ∧ p.2.parent = item.name) →
        resolveDependency registry (f + 1) hook files = .ok out →
        ∀ p ∈ out, ∃ k item, lookupReg registry k = some item ∧ p.2.parent = item.name := by
      intro hook files out h hres
      simp only [resolveDependency] at hres
      cases hlook : lookupReg registry hook with
      | none => rw [hlook] at hres; cases hres
      | some item =>
        rw [hlook] at hres
        refine ih.2 item.hooks _ out ?_ hres
        intro p hp
        rcases foldl_mapSet_mem _ item.packages _ p hp with ⟨x, _, hpx⟩ | hp2
        · exact ⟨hook, item, hlook, by simp [hpx]⟩
        · rcases foldl_mapSet_mem _ item.«local» _ p hp2 with ⟨x, _, hpx⟩ | hp3
          · exact ⟨hook, item, hlook, by simp [hpx]⟩
          · rcases foldl_mapSet_mem _ item.utils _ p hp3 with ⟨x, _, hpx⟩ | hp4
            · exact ⟨hook, item, hlook, by simp [hpx]⟩
            · rcases mapSet_mem hp4 with h1 | h2
              · exact ⟨hook, item, hlook, by simp [h1]⟩
              · exact h p h2
    refine ⟨hD, ?_⟩
    intro hooks
    induction hooks with
    | nil =>
      intro files out h hres
      simp only [exceptFold, Except.ok.injEq] at hres
      subst hres; exact h
    | cons hk rest ihr =>
      intro files out h hres
      simp only [exceptFold] at hres
      cases hstep : resolveDependency registry (f + 1) hk files with
      | error e => rw [hstep] at hres; cases hres
      | ok files1 =>
        rw [hstep] at hres
        exact ihr files1 out (hD hk files files1 h hstep) hres

/-- C10: every recorded node's parent — including the hook node of a
visited hook itself — is the `name` field of the looked-up registry
entry, not the registry key; and when key and display name differ, the
local-helper destination, index and source paths are built from the
display name.  The first part holds for every successful resolution; the
second exhibits the key-vs-display-name split on the one-entry registry
schema with a local helper. -/
theorem C10_parent_is_display_name :
    (∀ fuel registry roots files,
        resolveDependencies fuel registry roots = .ok files →
        ∀ p ∈ files, ∃ k item, lookupReg registry k = some item ∧
          p.2.parent = item.name) ∧
    (∀ key disp lh hooksRoot utilsRoot repoUrl ext : String, key ≠ lh →
        ∀ files,
          resolveDependencies 1
              [(key, { name := disp, hooks := [], utils := [], «local» := [lh], packages := [] })]
              [key] = .ok files →
          files = [(key, { type := .hook, name := key, parent := disp }),
                   (lh, { type := .«local», name := lh, parent := disp })] ∧
          buildFiles (mapValues files) hooksRoot utilsRoot repoUrl ext =
            ([{ name := key
                directoryPath := hooksRoot ++ "/" ++ (key ++ "/" ++ key) ++ "." ++ ext
                registryPath := repoUrl ++ "/hooks/" ++ (key ++ "/" ++ key) ++ "." ++ ext
                type := .hook
                indexPath := hooksRoot ++ "/index." ++ ext
                filePath := key ++ "/" ++ key },
              { name := lh
                directoryPath := hooksRoot ++ "/" ++ disp ++ "/helpers/" ++ lh ++ "." ++ ext
                registryPath := repoUrl ++ "/hooks/" ++ disp ++ "/helpers/" ++ lh ++ "." ++ ext
                type := .«local»
                indexPath := hooksRoot ++ "/" ++ disp ++ "/helpers/index." ++ ext
                filePath := lh }],
             [])) := by
  constructor
  · intro fuel registry roots files hres
    exact (resolve_parent_provenance registry fuel).2 roots [] files (by simp) hres
  · intro key disp lh hooksRoot utilsRoot repoUrl ext hkl files hres
    have h1 : ¬ key = lh := hkl
    simp only [resolveDependencies, resolveDependency, exceptFold, lookupReg, List.foldl,
      mapSet, if_neg h1, if_true, eq_self_iff_true, Except.ok.injEq] at hres
    subst hres
    exact ⟨rfl, rfl⟩

/-- Witness for `C10_parent_is_display_name`: provenance of the `useFoo`
node's parent, and the key/display-name split at key `k` with display
name `d` and local helper `l`. -/
theorem C10_parent_is_display_name_witness :
    (∃ k item, lookupReg fooReg k = some item ∧
        ((("useFoo", { type := DepType.hook, name := "useFoo", parent := "useFoo" })
            : String × DepNode)).2.parent = item.name) ∧
    (("k" : String) ≠ "l" ∧
      ([("k", { type := DepType.hook, name := "k", parent := "d" }),
        ("l", { type := DepType.«local», name := "l", parent := "d" })] : FilesMap) =
        [("k", { type := .hook, name := "k", parent := "d" }),
         ("l", { type := .«local», name := "l", parent := "d" })] ∧
      buildFiles
          (mapValues ([("k", { type := DepType.hook, name := "k", parent := "d" }),
                       ("l", { type := DepType.«local», name := "l", parent := "d" })] : FilesMap))
          "H" "U" "R" "x" =
        ([{ name := "k", directoryPath := "H/k/k.x", registryPath := "R/hooks/k/k.x",
            type := .hook, indexPath := "H/index.x", filePath := "k/k" },
          { name := "l", directoryPath := "H/d/helpers/l.x",
            registryPath := "R/hooks/d/helpers/l.x", type := .«local»,
            indexPath := "H/d/helpers/index.x", filePath := "l" }],
         [])) :=
  ⟨(C10_parent_is_display_name.1 1 fooReg ["useFoo"]
      [("useFoo", { type := .hook, name := "useFoo", parent := "useFoo" }),
       ("formatDate", { type := .util, name := "formatDate", parent := "useFoo" }),
       ("left-pad", { type := .package, name := "left-pad", parent := "useFoo" })] rfl)
      ("useFoo", { type := .hook, name := "useFoo", parent := "useFoo" })
      (List.mem_cons_self _ _),
   by decide,
   C10_parent_is_display_name.2 "k" "d" "l" "H" "U" "R" "x" (by decide)
     [("k", { type := .hook, name := "k", parent := "d" }),
      ("l", { type := .«local», name := "l", parent := "d" })] rfl⟩
